import Mathlib

/-!
# Verification of `rust-bloom-filter` (src/src/bloomfilter/lib.rs)

Shallow embedding of the `Bloom` structure and its operations.

Conventions of the embedding:
* `u64` / `u32` / `usize` values are `Nat` with an explicit `% 2^64`
  wherever the Rust code wraps (`wrapping_add`, `wrapping_mul`); the
  checked arithmetic (`assert!`) becomes an `Option` result where `none`
  models a panic (failed assert, `% 0`, out-of-bounds `BitVec::set`, or
  `Option::unwrap` on `None`).
* The two `SipHasher` instances (`sips: [SipHasher; 2]`) are modelled as
  two abstract deterministic hash functions `sip0 sip1 : α → Nat`; the
  code clones the hasher before each use, so each call is a pure function
  of the item.  Their `finish` result is a `u64`, hence the `% 2^64`.
* The floating-point expressions in `optimal_k_num` and
  `compute_bitmap_size` (`f64` arithmetic, `ln`, `ceil`) cannot be part
  of a shallow embedding over exact arithmetic; the *value* each such
  expression produces is abstracted into an explicit parameter (`kEst`,
  `sizeF`), while the exact integer parts around them (`cmp::max`, the
  asserts, the `(0,1)` range check on the rational value of the `f64`
  argument) are embedded faithfully.
* `bit_vec::BitVec` is a `List Bool`; `BitVec::get` is `List.getElem?`,
  `BitVec::set` requires the index to be in bounds (it panics
  otherwise), `BitVec::clear` zeroes every bit keeping the length, and
  `to_bytes` / `from_bytes` pack bits most-significant-bit first.
-/

set_option maxHeartbeats 1000000

/-- The modulus `0xffffffffffffffc5 = 2^64 - 59` used by `bloom_hash`. -/
def bloomM : Nat := 0xffffffffffffffc5

/-- The `Bloom` filter structure (`pub struct Bloom`). -/
structure Bloom (α : Type) where
  bitmap : List Bool
  bitmap_bits : Nat
  k_num : Nat
  sip0 : α → Nat
  sip1 : α → Nat

/-- Core of `Bloom::bloom_hash`, parameterised by the two sip hashers.
`hashes` is the `[u64; 2]` scratch array; the result is the returned
hash together with the updated scratch array. -/
def bloomHashWith {α : Type} (sip0 sip1 : α → Nat) (hashes : Nat × Nat)
    (item : α) (k_i : Nat) : Nat × (Nat × Nat) :=
  if k_i = 0 then
    let hash := sip0 item % 2 ^ 64
    (hash, (hash, hashes.2))
  else if k_i = 1 then
    let hash := sip1 item % 2 ^ 64
    (hash, (hashes.1, hash))
  else
    ((hashes.1 + k_i * hashes.2 % 2 ^ 64 % bloomM) % 2 ^ 64, hashes)

/-- `Bloom::bloom_hash`: for `k_i < 2` a fresh keyed hash of the item is
computed and cached in `hashes[k_i]`; otherwise
`hashes[0].wrapping_add((k_i as u64).wrapping_mul(hashes[1]) % 0xffffffffffffffc5)`. -/
def Bloom.bloom_hash {α : Type} (f : Bloom α) (hashes : Nat × Nat)
    (item : α) (k_i : Nat) : Nat × (Nat × Nat) :=
  bloomHashWith f.sip0 f.sip1 hashes item k_i

/-- `Bloom::optimal_k_num(bitmap_bits, items_count)`.  The floating point
expression `(bitmap_bits as f64 / items_count as f64 * 2f64.ln()).ceil() as u32`
is abstracted into the parameter `kEst` (the saturating float-to-int cast
never panics); the integer part `cmp::max(k_num, 1)` is kept exactly. -/
def Bloom.optimal_k_num (_bitmap_bits _items_count kEst : Nat) : Nat :=
  max kEst 1

/-- `Bloom::new(bitmap_size, items_count)`.  `none` models the
`assert!(bitmap_size > 0 && items_count > 0)` panic.  The fresh
`SipHasher` pair of `sip_new` is abstracted into `s0`, `s1`. -/
def Bloom.new {α : Type} (bitmap_size items_count kEst : Nat)
    (s0 s1 : α → Nat) : Option (Bloom α) :=
  if bitmap_size > 0 ∧ items_count > 0 then
    let bitmap_bits := bitmap_size * 8
    some { bitmap := List.replicate bitmap_bits false
         , bitmap_bits := bitmap_bits
         , k_num := Bloom.optimal_k_num bitmap_bits items_count kEst
         , sip0 := s0
         , sip1 := s1 }
  else none

/-- Pack eight booleans (most significant bit first) into a byte value,
as `bit_vec::BitVec::to_bytes` does within each byte. -/
def byteOfBits (bits : List Bool) : Nat :=
  bits.foldl (fun acc b => acc * 2 + (if b then 1 else 0)) 0

/-- Unpack a byte into its eight bits, most significant first, as
`bit_vec::BitVec::from_bytes` does. -/
def bitsOfByte (byte : Nat) : List Bool :=
  [byte.testBit 7, byte.testBit 6, byte.testBit 5, byte.testBit 4,
   byte.testBit 3, byte.testBit 2, byte.testBit 1, byte.testBit 0]

/-- `bit_vec::BitVec::to_bytes`: pack the bit sequence into bytes,
MSB-first, padding a trailing fragment with zero bits. -/
def bitVecToBytes : List Bool → List Nat
  | [] => []
  | b0 :: b1 :: b2 :: b3 :: b4 :: b5 :: b6 :: b7 :: rest =>
      byteOfBits [b0, b1, b2, b3, b4, b5, b6, b7] :: bitVecToBytes rest
  | l => [byteOfBits (l ++ List.replicate (8 - l.length) false)]

/-- `bit_vec::BitVec::from_bytes`: one bit per position, eight bits per
byte, MSB-first; the resulting length is `8 * bytes.len()`. -/
def bitVecFromBytes (bytes : List Nat) : List Bool :=
  (bytes.map bitsOfByte).flatten

/-- `Bloom::from_bytes(bytes, k_num)`: no validation; `bitmap_bits =
bytes.len() * 8`, the bitmap is exactly the unpacked bytes, and the two
fresh `sip_new` hashers are abstracted into `s0`, `s1`. -/
def Bloom.from_bytes {α : Type} (bytes : List Nat) (k_num : Nat)
    (s0 s1 : α → Nat) : Bloom α :=
  { bitmap := bitVecFromBytes bytes
  , bitmap_bits := bytes.length * 8
  , k_num := k_num
  , sip0 := s0
  , sip1 := s1 }

/-- `Bloom::to_bytes`: `(self.bitmap.to_bytes(), self.k_num)`. -/
def Bloom.to_bytes {α : Type} (f : Bloom α) : List Nat × Nat :=
  (bitVecToBytes f.bitmap, f.k_num)

/-- `Bloom::compute_bitmap_size(items_count, fp_p)`.  The `f64` argument
is modelled by its exact rational value `fp_p : ℚ` (every finite `f64`
is a rational, and comparisons against `0.0` and `1.0` are exact); the
transcendental expression
`(items_count as f64 * fp_p.ln() / (-8.0 * LN_2^2)).ceil() as usize`
is abstracted into the parameter `sizeF`.  `none` models either
assert panicking. -/
def Bloom.compute_bitmap_size (items_count : Nat) (fp_p : ℚ) (sizeF : Nat) :
    Option Nat :=
  if items_count > 0 then
    if 0 < fp_p ∧ fp_p < 1 then some sizeF else none
  else none

/-- `Bloom::new_for_fp_rate(items_count, fp_p)`: compute the bitmap size
and delegate to `new`. -/
def Bloom.new_for_fp_rate {α : Type} (items_count : Nat) (fp_p : ℚ)
    (sizeF kEst : Nat) (s0 s1 : α → Nat) : Option (Bloom α) :=
  (Bloom.compute_bitmap_size items_count fp_p sizeF).bind fun bitmap_size =>
    Bloom.new bitmap_size items_count kEst s0 s1

/-- Loop body of `Bloom::set`, iterating over the round indices
`0..k_num`.  `none` models a panic: `% 0` when `bitmap_bits = 0`, or
`BitVec::set` on an out-of-range index. -/
def Bloom.setAux {α : Type} (item : α) :
    Bloom α → Nat × Nat → List Nat → Option (Bloom α)
  | f, _, [] => some f
  | f, hashes, k_i :: ks =>
    if f.bitmap_bits = 0 then none
    else
      let r := f.bloom_hash hashes item k_i
      let bit_offset := r.1 % f.bitmap_bits
      if bit_offset < f.bitmap.length then
        Bloom.setAux item { f with bitmap := f.bitmap.set bit_offset true } r.2 ks
      else none

/-- `Bloom::set(item)`: record the presence of an item. -/
def Bloom.set {α : Type} (f : Bloom α) (item : α) : Option (Bloom α) :=
  Bloom.setAux item f (0, 0) (List.range f.k_num)

/-- Loop body of `Bloom::check`: `none` models `% 0` or
`self.bitmap.get(bit_offset).unwrap()` panicking; the loop returns
`false` at the first unset bit. -/
def Bloom.checkAux {α : Type} (f : Bloom α) (item : α) :
    Nat × Nat → List Nat → Option Bool
  | _, [] => some true
  | hashes, k_i :: ks =>
    if f.bitmap_bits = 0 then none
    else
      let r := f.bloom_hash hashes item k_i
      let bit_offset := r.1 % f.bitmap_bits
      match f.bitmap[bit_offset]? with
      | none => none
      | some b => if b = false then some false else Bloom.checkAux f item r.2 ks

/-- `Bloom::check(item)`: test membership; false positives possible,
no false negatives. -/
def Bloom.check {α : Type} (f : Bloom α) (item : α) : Option Bool :=
  Bloom.checkAux f item (0, 0) (List.range f.k_num)

/-- Loop body of `Bloom::check_and_set`: reads the bit, and when it is
unset records `found = false` and sets it in the same pass. -/
def Bloom.check_and_setAux {α : Type} (item : α) :
    Bloom α → Nat × Nat → Bool → List Nat → Option (Bool × Bloom α)
  | f, _, found, [] => some (found, f)
  | f, hashes, found, k_i :: ks =>
    if f.bitmap_bits = 0 then none
    else
      let r := f.bloom_hash hashes item k_i
      let bit_offset := r.1 % f.bitmap_bits
      match f.bitmap[bit_offset]? with
      | none => none
      | some b =>
        if b = false then
          Bloom.check_and_setAux item
            { f with bitmap := f.bitmap.set bit_offset true } r.2 false ks
        else
          Bloom.check_and_setAux item f r.2 found ks

/-- `Bloom::check_and_set(item)`: record the presence of an item and
return the previous state of this item. -/
def Bloom.check_and_set {α : Type} (f : Bloom α) (item : α) :
    Option (Bool × Bloom α) :=
  Bloom.check_and_setAux item f (0, 0) true (List.range f.k_num)

/-- `Bloom::clear`: `self.bitmap.clear()` zeroes every storage word of
the `BitVec`, keeping its length (and every other field) unchanged. -/
def Bloom.clear {α : Type} (f : Bloom α) : Bloom α :=
  { f with bitmap := List.replicate f.bitmap.length false }

/-- A sequence of further `set` calls, applied left to right. -/
def Bloom.setMany {α : Type} (f : Bloom α) (items : List α) : Option (Bloom α) :=
  items.foldlM Bloom.set f

/-! ## The journaled BitStore variant (spec §4.2, not present in `src/`) -/

/-- Modelled from the spec: the journaled `BitStore` variant is absent
from `src/` (only the `BitVec`-backed store exists there).  Per the
spec, `words` is an ordered sequence of 64-bit words owning the bit
array, and `dirty` is the append-only, not-deduplicated journal of word
indices touched since the last drain. -/
structure JournalStore where
  words : List Nat
  dirty : List Nat

/-- Modelled from the spec: `set_bit(index)` of the journaled variant
computes `word_index = index / 64`, `bit_index = index % 64`, ORs the
single-bit mask into the word, and appends `word_index` to the dirty
journal unconditionally.  `none` models an out-of-range word access. -/
def JournalStore.set_bit (s : JournalStore) (index : Nat) : Option JournalStore :=
  let word_index := index / 64
  let bit_index := index % 64
  if word_index < s.words.length then
    some { words := s.words.set word_index
                      (s.words.getD word_index 0 ||| (1 <<< bit_index))
         , dirty := s.dirty ++ [word_index] }
  else none

/-- Modelled from the spec: a Filter backed by the journaled `BitStore`
variant, carrying the same parameters and double-hashing scheme as
`Bloom` but delegating its bit writes to `JournalStore.set_bit`. -/
structure JournalBloom (α : Type) where
  store : JournalStore
  bitmap_bits : Nat
  k_num : Nat
  sip0 : α → Nat
  sip1 : α → Nat

/-- Modelled from the spec: loop body of the journaled filter's `set`,
mapping the item to `k_num` bit positions via the hash-derivation
algorithm and delegating each to `set_bit`. -/
def JournalBloom.setAux {α : Type} (f : JournalBloom α) (item : α) :
    Nat × Nat → JournalStore → List Nat → Option JournalStore
  | _, s, [] => some s
  | hashes, s, k_i :: ks =>
    if f.bitmap_bits = 0 then none
    else
      let r := bloomHashWith f.sip0 f.sip1 hashes item k_i
      let bit_offset := r.1 % f.bitmap_bits
      match s.set_bit bit_offset with
      | none => none
      | some s2 => JournalBloom.setAux f item r.2 s2 ks

/-- Modelled from the spec: `set(item)` on the journaled filter. -/
def JournalBloom.set {α : Type} (f : JournalBloom α) (item : α) :
    Option (JournalBloom α) :=
  (f.setAux item (0, 0) f.store (List.range f.k_num)).map
    fun s => { f with store := s }

/-! ## Pure specification views of the loops -/

/-- The sequence of bit offsets a `set`/`check`/`check_and_set` call
visits for `item`: a pure function of the sip hashers, `bitmap_bits`
and the round indices — the bitmap itself plays no role. -/
def offsetsAux {α : Type} (sip0 sip1 : α → Nat) (item : α) (bits : Nat) :
    Nat × Nat → List Nat → List Nat
  | _, [] => []
  | hashes, k_i :: ks =>
    let r := bloomHashWith sip0 sip1 hashes item k_i
    r.1 % bits :: offsetsAux sip0 sip1 item bits r.2 ks

/-- The bit offsets of `item` in filter `f`. -/
def Bloom.offsets {α : Type} (f : Bloom α) (item : α) : List Nat :=
  offsetsAux f.sip0 f.sip1 item f.bitmap_bits (0, 0) (List.range f.k_num)

/-- Set every listed offset in a bitmap. -/
def setBits (bm : List Bool) (os : List Nat) : List Bool :=
  os.foldl (fun bm o => bm.set o true) bm

/-- All listed offsets hold a set bit. -/
def allSet (bm : List Bool) (os : List Nat) : Bool :=
  os.all fun o => bm.getD o false

/-! ## Bit-level lemmas -/

theorem getD_set_true_of_getD {bm : List Bool} {p o : Nat}
    (h : bm.getD p false = true) : (bm.set o true).getD p false = true := by
  rw [List.getD_eq_getElem?_getD] at h ⊢
  rw [List.getElem?_set]
  by_cases hop : o = p
  · subst hop
    by_cases hlt : o < bm.length
    · simp [hlt]
    · rw [List.getElem?_eq_none (by omega)] at h
      simp at h
  · simp [hop, h]

theorem getD_set_true_self {bm : List Bool} {o : Nat} (h : o < bm.length) :
    (bm.set o true).getD o false = true := by
  rw [List.getD_eq_getElem?_getD, List.getElem?_set]
  simp [h]

theorem getD_setBits_of_getD {os : List Nat} {bm : List Bool} {p : Nat}
    (h : bm.getD p false = true) : (setBits bm os).getD p false = true := by
  induction os generalizing bm with
  | nil => exact h
  | cons o os ih =>
    simpa [setBits] using ih (getD_set_true_of_getD h)

theorem setBits_length (bm : List Bool) (os : List Nat) :
    (setBits bm os).length = bm.length := by
  induction os generalizing bm with
  | nil => rfl
  | cons o os ih => simpa [setBits] using ih (bm.set o true)

theorem allSet_setBits {os : List Nat} {bm : List Bool}
    (h : ∀ o ∈ os, o < bm.length) : allSet (setBits bm os) os = true := by
  induction os generalizing bm with
  | nil => rfl
  | cons o os ih =>
    simp only [setBits, List.foldl_cons, allSet, List.all_cons, Bool.and_eq_true]
    refine ⟨getD_setBits_of_getD (getD_set_true_self (h o (by simp))), ?_⟩
    have := @ih (bm.set o true) fun p hp => by
      rw [List.length_set]; exact h p (List.mem_cons_of_mem _ hp)
    simpa [setBits, allSet] using this

theorem allSet_of_getD_mono {bm bm2 : List Bool} {os : List Nat}
    (hmono : ∀ p, bm.getD p false = true → bm2.getD p false = true)
    (h : allSet bm os = true) : allSet bm2 os = true := by
  simp only [allSet, List.all_eq_true] at h ⊢
  exact fun o ho => hmono o (h o ho)

theorem getD_replicate_false (n p : Nat) :
    (List.replicate n false).getD p false = false := by
  rw [List.getD_eq_getElem?_getD, List.getElem?_replicate]
  split <;> rfl

theorem set_true_eq_self {l : List Bool} {i : Nat} (h : l[i]? = some true) :
    l.set i true = l := by
  apply List.ext_getElem?
  intro j
  rw [List.getElem?_set]
  split
  · rename_i hij
    subst hij
    have : i < l.length := (List.getElem?_eq_some_iff.mp h).1
    simp [this, ← h]
  · rfl

/-! ## Offset-sequence lemmas -/

theorem offsetsAux_lt {α : Type} (sip0 sip1 : α → Nat) (item : α) {bits : Nat}
    (hb : 0 < bits) :
    ∀ (ks : List Nat) (hashes : Nat × Nat) (o : Nat),
      o ∈ offsetsAux sip0 sip1 item bits hashes ks → o < bits := by
  intro ks
  induction ks with
  | nil => simp [offsetsAux]
  | cons k ks ih =>
    intro hashes o ho
    simp only [offsetsAux, List.mem_cons] at ho
    rcases ho with h | h
    · subst h; exact Nat.mod_lt _ hb
    · exact ih _ _ h

theorem offsets_congr {α : Type} {f g : Bloom α} (item : α)
    (h0 : g.sip0 = f.sip0) (h1 : g.sip1 = f.sip1)
    (hb : g.bitmap_bits = f.bitmap_bits) (hk : g.k_num = f.k_num) :
    g.offsets item = f.offsets item := by
  unfold Bloom.offsets
  rw [h0, h1, hb, hk]

/-! ## Characterisation of the loops by pure functions -/

theorem setAux_eq {α : Type} (item : α) :
    ∀ (ks : List Nat) (f : Bloom α) (hashes : Nat × Nat),
      0 < f.bitmap_bits → f.bitmap_bits ≤ f.bitmap.length →
      Bloom.setAux item f hashes ks =
        some { f with
               bitmap :=
                 setBits f.bitmap
                   (offsetsAux f.sip0 f.sip1 item f.bitmap_bits hashes ks) } := by
  intro ks
  induction ks with
  | nil => intro f hashes _ _; rfl
  | cons k ks ih =>
    intro f hashes hb hle
    have hne : ¬ f.bitmap_bits = 0 := Nat.pos_iff_ne_zero.mp hb
    have hoff : (bloomHashWith f.sip0 f.sip1 hashes item k).1 % f.bitmap_bits <
        f.bitmap.length := lt_of_lt_of_le (Nat.mod_lt _ hb) hle
    have hrec := ih { f with bitmap := f.bitmap.set ((bloomHashWith f.sip0 f.sip1 hashes item k).1 % f.bitmap_bits) true }
      (bloomHashWith f.sip0 f.sip1 hashes item k).2 hb
      (by simpa using hle)
    simp only [Bloom.setAux, Bloom.bloom_hash]
    rw [if_neg hne, if_pos hoff, hrec]
    simp only [offsetsAux, setBits, List.foldl_cons, Bloom.bloom_hash]

theorem checkAux_eq {α : Type} (f : Bloom α) (item : α)
    (hb : 0 < f.bitmap_bits) (hle : f.bitmap_bits ≤ f.bitmap.length) :
    ∀ (ks : List Nat) (hashes : Nat × Nat),
      Bloom.checkAux f item hashes ks =
        some (allSet f.bitmap (offsetsAux f.sip0 f.sip1 item f.bitmap_bits hashes ks)) := by
  intro ks
  induction ks with
  | nil => intro hashes; rfl
  | cons k ks ih =>
    intro hashes
    have hne : ¬ f.bitmap_bits = 0 := Nat.pos_iff_ne_zero.mp hb
    have hoff : (bloomHashWith f.sip0 f.sip1 hashes item k).1 % f.bitmap_bits <
        f.bitmap.length := lt_of_lt_of_le (Nat.mod_lt _ hb) hle
    simp only [Bloom.checkAux, Bloom.bloom_hash]
    rw [if_neg hne]
    rcases hget : f.bitmap[(bloomHashWith f.sip0 f.sip1 hashes item k).1 % f.bitmap_bits]? with _ | b
    · rw [List.getElem?_eq_none_iff] at hget
      omega
    · have hgetD : f.bitmap.getD
          ((bloomHashWith f.sip0 f.sip1 hashes item k).1 % f.bitmap_bits) false = b := by
        rw [List.getD_eq_getElem?_getD, hget]; rfl
      cases b with
      | false =>
        simp [hget, offsetsAux, allSet, hgetD, Bloom.bloom_hash]
      | true =>
        simp only [hget, offsetsAux, allSet, List.all_cons, hgetD, Bloom.bloom_hash]
        rw [ih]
        simp [allSet]

theorem check_and_setAux_eq {α : Type} (item : α) :
    ∀ (ks : List Nat) (f : Bloom α) (hashes : Nat × Nat) (found : Bool),
      0 < f.bitmap_bits → f.bitmap_bits ≤ f.bitmap.length →
      Bloom.check_and_setAux item f hashes found ks =
        some (found && allSet f.bitmap (offsetsAux f.sip0 f.sip1 item f.bitmap_bits hashes ks), { f with bitmap := setBits f.bitmap (offsetsAux f.sip0 f.sip1 item f.bitmap_bits hashes ks) }) := by
  intro ks
  induction ks with
  | nil =>
    intro f hashes found _ _
    simp [Bloom.check_and_setAux, offsetsAux, allSet, setBits]
  | cons k ks ih =>
    intro f hashes found hb hle
    have hne : ¬ f.bitmap_bits = 0 := Nat.pos_iff_ne_zero.mp hb
    have hoff : (bloomHashWith f.sip0 f.sip1 hashes item k).1 % f.bitmap_bits <
        f.bitmap.length := lt_of_lt_of_le (Nat.mod_lt _ hb) hle
    simp only [Bloom.check_and_setAux, Bloom.bloom_hash]
    rw [if_neg hne]
    rcases hget : f.bitmap[(bloomHashWith f.sip0 f.sip1 hashes item k).1 % f.bitmap_bits]? with _ | b
    · rw [List.getElem?_eq_none_iff] at hget
      omega
    · have hgetD : f.bitmap.getD
          ((bloomHashWith f.sip0 f.sip1 hashes item k).1 % f.bitmap_bits) false = b := by
        rw [List.getD_eq_getElem?_getD, hget]; rfl
      cases b with
      | false =>
        have hrec := ih { f with bitmap := f.bitmap.set ((bloomHashWith f.sip0 f.sip1 hashes item k).1 % f.bitmap_bits) true }
          (bloomHashWith f.sip0 f.sip1 hashes item k).2 false hb (by simpa using hle)
        simp only [hget]
        rw [if_pos trivial, hrec]
        simp [offsetsAux, allSet, setBits, hgetD, hget, Bloom.bloom_hash]
      | true =>
        have hrec := ih f (bloomHashWith f.sip0 f.sip1 hashes item k).2 found hb hle
        simp only [hget]
        rw [if_neg (by simp), hrec]
        have hself : f.bitmap.set
            ((bloomHashWith f.sip0 f.sip1 hashes item k).1 % f.bitmap_bits) true = f.bitmap :=
          set_true_eq_self hget
        simp [offsetsAux, allSet, setBits, hgetD, hget, hself, Bloom.bloom_hash]

theorem set_eq_setBits {α : Type} (f : Bloom α) (item : α) (hb : 0 < f.bitmap_bits)
    (hle : f.bitmap_bits ≤ f.bitmap.length) :
    f.set item = some { f with bitmap := setBits f.bitmap (f.offsets item) } :=
  setAux_eq item (List.range f.k_num) f (0, 0) hb hle

theorem check_eq_allSet {α : Type} (f : Bloom α) (item : α) (hb : 0 < f.bitmap_bits)
    (hle : f.bitmap_bits ≤ f.bitmap.length) :
    f.check item = some (allSet f.bitmap (f.offsets item)) :=
  checkAux_eq f item hb hle (List.range f.k_num) (0, 0)

theorem check_and_set_eq {α : Type} (f : Bloom α) (item : α) (hb : 0 < f.bitmap_bits)
    (hle : f.bitmap_bits ≤ f.bitmap.length) :
    f.check_and_set item =
      some (allSet f.bitmap (f.offsets item), { f with bitmap := setBits f.bitmap (f.offsets item) }) := by
  have h := check_and_setAux_eq item (List.range f.k_num) f (0, 0) true hb hle
  simpa [Bloom.check_and_set, Bloom.offsets] using h

/-! ## Field preservation and monotonicity of the mutating operations -/

theorem setAux_fields {α : Type} (item : α) :
    ∀ (ks : List Nat) (f f2 : Bloom α) (hashes : Nat × Nat),
      Bloom.setAux item f hashes ks = some f2 →
      f2.bitmap_bits = f.bitmap_bits ∧ f2.k_num = f.k_num ∧ f2.sip0 = f.sip0 ∧
        f2.sip1 = f.sip1 ∧ f2.bitmap.length = f.bitmap.length := by
  intro ks
  induction ks with
  | nil =>
    intro f f2 hashes h
    simp only [Bloom.setAux, Option.some.injEq] at h
    subst h
    exact ⟨rfl, rfl, rfl, rfl, rfl⟩
  | cons k ks ih =>
    intro f f2 hashes h
    simp only [Bloom.setAux] at h
    split at h
    · simp at h
    · split at h
      · simpa [List.length_set] using ih _ _ _ h
      · simp at h

theorem setAux_getD_mono {α : Type} (item : α) :
    ∀ (ks : List Nat) (f f2 : Bloom α) (hashes : Nat × Nat) (p : Nat),
      Bloom.setAux item f hashes ks = some f2 →
      f.bitmap.getD p false = true → f2.bitmap.getD p false = true := by
  intro ks
  induction ks with
  | nil =>
    intro f f2 hashes p h hp
    simp only [Bloom.setAux, Option.some.injEq] at h
    subst h
    exact hp
  | cons k ks ih =>
    intro f f2 hashes p h hp
    simp only [Bloom.setAux] at h
    split at h
    · simp at h
    · split at h
      · exact ih _ _ _ _ h (getD_set_true_of_getD hp)
      · simp at h

theorem check_and_setAux_fields {α : Type} (item : α) :
    ∀ (ks : List Nat) (f f2 : Bloom α) (hashes : Nat × Nat) (found b2 : Bool),
      Bloom.check_and_setAux item f hashes found ks = some (b2, f2) →
      f2.bitmap_bits = f.bitmap_bits ∧ f2.k_num = f.k_num ∧ f2.sip0 = f.sip0 ∧
        f2.sip1 = f.sip1 ∧ f2.bitmap.length = f.bitmap.length := by
  intro ks
  induction ks with
  | nil =>
    intro f f2 hashes found b2 h
    simp only [Bloom.check_and_setAux, Option.some.injEq, Prod.mk.injEq] at h
    rw [← h.2]
    exact ⟨rfl, rfl, rfl, rfl, rfl⟩
  | cons k ks ih =>
    intro f f2 hashes found b2 h
    simp only [Bloom.check_and_setAux] at h
    split at h
    · simp at h
    · split at h
      · simp at h
      · split at h
        · simpa [List.length_set] using ih _ _ _ _ _ h
        · exact ih _ _ _ _ _ h

theorem set_fields {α : Type} {f f2 : Bloom α} {x : α} (h : f.set x = some f2) :
    f2.bitmap_bits = f.bitmap_bits ∧ f2.k_num = f.k_num ∧ f2.sip0 = f.sip0 ∧
      f2.sip1 = f.sip1 ∧ f2.bitmap.length = f.bitmap.length :=
  setAux_fields x (List.range f.k_num) f f2 (0, 0) h

theorem set_getD_mono {α : Type} {f f2 : Bloom α} {x : α} {p : Nat}
    (h : f.set x = some f2) (hp : f.bitmap.getD p false = true) :
    f2.bitmap.getD p false = true :=
  setAux_getD_mono x (List.range f.k_num) f f2 (0, 0) p h hp

theorem setMany_fields {α : Type} :
    ∀ (items : List α) (f f2 : Bloom α), f.setMany items = some f2 →
      f2.bitmap_bits = f.bitmap_bits ∧ f2.k_num = f.k_num ∧ f2.sip0 = f.sip0 ∧
        f2.sip1 = f.sip1 ∧ f2.bitmap.length = f.bitmap.length := by
  intro items
  induction items with
  | nil =>
    intro f f2 h
    simp only [Bloom.setMany, List.foldlM_nil, pure, Option.some.injEq] at h
    subst h
    exact ⟨rfl, rfl, rfl, rfl, rfl⟩
  | cons y ys ih =>
    intro f f2 h
    simp only [Bloom.setMany, List.foldlM_cons] at h
    rcases h1 : f.set y with _ | g
    · rw [h1] at h
      simp at h
    · rw [h1] at h
      simp only [Option.bind_eq_bind, Option.some_bind] at h
      obtain ⟨b1, b2, b3, b4, b5⟩ := set_fields h1
      obtain ⟨c1, c2, c3, c4, c5⟩ := ih g f2 h
      exact ⟨c1.trans b1, c2.trans b2, c3.trans b3, c4.trans b4, c5.trans b5⟩

theorem setMany_getD_mono {α : Type} :
    ∀ (items : List α) (f f2 : Bloom α) (p : Nat), f.setMany items = some f2 →
      f.bitmap.getD p false = true → f2.bitmap.getD p false = true := by
  intro items
  induction items with
  | nil =>
    intro f f2 p h hp
    simp only [Bloom.setMany, List.foldlM_nil, pure, Option.some.injEq] at h
    subst h
    exact hp
  | cons y ys ih =>
    intro f f2 p h hp
    simp only [Bloom.setMany, List.foldlM_cons] at h
    rcases h1 : f.set y with _ | g
    · rw [h1] at h
      simp at h
    · rw [h1] at h
      simp only [Option.bind_eq_bind, Option.some_bind] at h
      exact ih g f2 p h (set_getD_mono h1 hp)

/-! ## Constructor lemmas -/

theorem new_eq_some {α : Type} {size items kEst : Nat} {s0 s1 : α → Nat} {f : Bloom α}
    (h : Bloom.new size items kEst s0 s1 = some f) :
    0 < size ∧ 0 < items ∧ f.bitmap = List.replicate (size * 8) false ∧
      f.bitmap_bits = size * 8 ∧ f.k_num = max kEst 1 ∧ f.sip0 = s0 ∧ f.sip1 = s1 := by
  by_cases hc : size > 0 ∧ items > 0
  · simp only [Bloom.new, if_pos hc, Option.some.injEq] at h
    subst h
    exact ⟨hc.1, hc.2, rfl, rfl, rfl, rfl, rfl⟩
  · simp [Bloom.new, hc] at h

theorem new_wf {α : Type} {size items kEst : Nat} {s0 s1 : α → Nat} {f : Bloom α}
    (h : Bloom.new size items kEst s0 s1 = some f) :
    0 < f.bitmap_bits ∧ f.bitmap.length = f.bitmap_bits ∧ 1 ≤ f.k_num := by
  obtain ⟨h1, _, h3, h4, h5, _, _⟩ := new_eq_some h
  refine ⟨by omega, ?_, by omega⟩
  rw [h3, h4, List.length_replicate]

/-- A successful `set` with at least one round forces `bitmap_bits ≠ 0`
and puts the round-0 bit offset in range. -/
theorem set_some_head {α : Type} {f f2 : Bloom α} {x : α} (hk : 1 ≤ f.k_num)
    (h : f.set x = some f2) :
    f.bitmap_bits ≠ 0 ∧
      (bloomHashWith f.sip0 f.sip1 (0, 0) x 0).1 % f.bitmap_bits < f.bitmap.length := by
  obtain ⟨m, hm⟩ : ∃ m, f.k_num = m + 1 := ⟨f.k_num - 1, by omega⟩
  rw [Bloom.set, hm, List.range_succ_eq_map] at h
  simp only [Bloom.setAux, Bloom.bloom_hash] at h
  split at h
  · simp at h
  · split at h
    · rename_i hne hlt
      exact ⟨hne, hlt⟩
    · simp at h

/-! ## Byte serialization round-trip -/

theorem bitsOfByte_byteOfBits (b0 b1 b2 b3 b4 b5 b6 b7 : Bool) :
    bitsOfByte (byteOfBits [b0, b1, b2, b3, b4, b5, b6, b7]) =
      [b0, b1, b2, b3, b4, b5, b6, b7] := by
  cases b0 <;> cases b1 <;> cases b2 <;> cases b3 <;>
    cases b4 <;> cases b5 <;> cases b6 <;> cases b7 <;> rfl

theorem length_bitVecFromBytes (bs : List Nat) :
    (bitVecFromBytes bs).length = 8 * bs.length := by
  induction bs with
  | nil => rfl
  | cons b bs ih =>
    simp only [bitVecFromBytes, List.map_cons, List.flatten_cons, List.length_append,
      List.length_cons] at ih ⊢
    simp only [bitsOfByte, List.length_cons, List.length_nil]
    omega

theorem bitVecFromBytes_toBytes_aux :
    ∀ (n : Nat) (l : List Bool), l.length ≤ n → 8 ∣ l.length →
      bitVecFromBytes (bitVecToBytes l) = l := by
  intro n
  induction n with
  | zero =>
    intro l hlen _
    have : l = [] := List.eq_nil_of_length_eq_zero (by omega)
    subst this
    rfl
  | succ n ih =>
    intro l hlen hdvd
    rcases l with _ | ⟨b0, l⟩
    · rfl
    rcases l with _ | ⟨b1, l⟩
    · simp only [List.length_cons, List.length_nil] at hdvd; omega
    rcases l with _ | ⟨b2, l⟩
    · simp only [List.length_cons, List.length_nil] at hdvd; omega
    rcases l with _ | ⟨b3, l⟩
    · simp only [List.length_cons, List.length_nil] at hdvd; omega
    rcases l with _ | ⟨b4, l⟩
    · simp only [List.length_cons, List.length_nil] at hdvd; omega
    rcases l with _ | ⟨b5, l⟩
    · simp only [List.length_cons, List.length_nil] at hdvd; omega
    rcases l with _ | ⟨b6, l⟩
    · simp only [List.length_cons, List.length_nil] at hdvd; omega
    rcases l with _ | ⟨b7, l⟩
    · simp only [List.length_cons, List.length_nil] at hdvd; omega
    have hdvd2 : 8 ∣ l.length := by
      simp only [List.length_cons] at hdvd
      omega
    have hlen2 : l.length ≤ n := by
      simp only [List.length_cons] at hlen
      omega
    have hrec := ih l hlen2 hdvd2
    simp only [bitVecToBytes, bitVecFromBytes, List.map_cons, List.flatten_cons] at hrec ⊢
    rw [bitsOfByte_byteOfBits, hrec]
    rfl

theorem bitVecFromBytes_toBytes {l : List Bool} (hdvd : 8 ∣ l.length) :
    bitVecFromBytes (bitVecToBytes l) = l :=
  bitVecFromBytes_toBytes_aux l.length l le_rfl hdvd

/-! ## Journal lemmas -/

theorem set_bit_lengths {s s2 : JournalStore} {i : Nat} (h : s.set_bit i = some s2) :
    s2.dirty.length = s.dirty.length + 1 ∧ s2.words.length = s.words.length := by
  simp only [JournalStore.set_bit] at h
  split at h
  · simp only [Option.some.injEq] at h
    subst h
    simp
  · simp at h

theorem jSetAux_dirty {α : Type} (f : JournalBloom α) (item : α) :
    ∀ (ks : List Nat) (hashes : Nat × Nat) (s s2 : JournalStore),
      JournalBloom.setAux f item hashes s ks = some s2 →
      s2.dirty.length = s.dirty.length + ks.length := by
  intro ks
  induction ks with
  | nil =>
    intro hashes s s2 h
    simp only [JournalBloom.setAux, Option.some.injEq] at h
    subst h
    simp
  | cons k ks ih =>
    intro hashes s s2 h
    simp only [JournalBloom.setAux] at h
    split at h
    · simp at h
    · split at h
      · simp at h
      · rename_i s1 hsb
        have h1 := set_bit_lengths hsb
        have h2 := ih _ s1 s2 h
        simp only [List.length_cons]
        omega

/-! ## Claims -/

/-- C1: No false negatives — for every filter constructed with `new`
(so `bitmap_bits > 0` and `k_num ≥ 1`), after any earlier `set` calls,
a `set x`, and any interleaved sequence of further `set` calls on other
items with no `clear`, a `check x` on that same filter returns `true`. -/
theorem c1_no_false_negatives {α : Type} (size items kEst : Nat) (s0 s1 : α → Nat)
    (f f0 f1 f2 : Bloom α) (zs ys : List α) (x : α)
    (hnew : Bloom.new size items kEst s0 s1 = some f)
    (hzs : f.setMany zs = some f0)
    (hx : f0.set x = some f1)
    (hys : f1.setMany ys = some f2) :
    f2.check x = some true := by
  obtain ⟨hb, hlen, _⟩ := new_wf hnew
  obtain ⟨z1, z2, z3, z4, z5⟩ := setMany_fields zs f f0 hzs
  have hb0 : 0 < f0.bitmap_bits := by omega
  have hlen0 : f0.bitmap.length = f0.bitmap_bits := by omega
  have hset := set_eq_setBits f0 x hb0 hlen0.ge
  rw [hx, Option.some.injEq] at hset
  have hall : allSet f1.bitmap (f0.offsets x) = true := by
    rw [hset]
    exact allSet_setBits fun o ho =>
      lt_of_lt_of_le (offsetsAux_lt _ _ _ hb0 _ _ _ ho) hlen0.ge
  have hall2 : allSet f2.bitmap (f0.offsets x) = true :=
    allSet_of_getD_mono (fun p hp => setMany_getD_mono ys f1 f2 p hys hp) hall
  obtain ⟨y1, y2, y3, y4, y5⟩ := set_fields hx
  obtain ⟨w1, w2, w3, w4, w5⟩ := setMany_fields ys f1 f2 hys
  have hb2 : 0 < f2.bitmap_bits := by omega
  have hlen2 : f2.bitmap.length = f2.bitmap_bits := by omega
  rw [check_eq_allSet f2 x hb2 hlen2.ge,
    offsets_congr x (w3.trans y3) (w4.trans y4) (w1.trans y1) (w2.trans y2), hall2]

/-- C1 witness: a concrete run of `new`, `set 5`, `set 2`, `check 5`. -/
theorem c1_no_false_negatives_witness :
    Bloom.check { bitmap := [false, false, true, false, false, true, false, false], bitmap_bits := 8, k_num := 1, sip0 := fun n => n, sip1 := fun n => n + 1 } 5 = some true :=
  c1_no_false_negatives 1 1 0 (fun n : Nat => n) (fun n => n + 1) _ _ _ _ [] [2] 5
    rfl rfl rfl rfl

/-- C2: `check_and_set` is `check` then unconditional `set`: on any
filter state satisfying the representation invariant, its returned
Boolean is exactly what `check` returns on the pre-call state, and its
post-call state is exactly what `set` produces on the pre-call state
(including agreement of the panic behaviour). -/
theorem c2_check_and_set_equiv {α : Type} (f : Bloom α) (x : α)
    (hlen : f.bitmap.length = f.bitmap_bits) :
    (f.check_and_set x).map Prod.fst = f.check x ∧
      (f.check_and_set x).map Prod.snd = f.set x := by
  by_cases hb : 0 < f.bitmap_bits
  · rw [check_and_set_eq f x hb hlen.ge, check_eq_allSet f x hb hlen.ge,
      set_eq_setBits f x hb hlen.ge]
    simp
  · have hz : f.bitmap_bits = 0 := by omega
    rcases hk : f.k_num with _ | m
    · simp [Bloom.check_and_set, Bloom.check, Bloom.set, hk, Bloom.check_and_setAux,
        Bloom.checkAux, Bloom.setAux]
    · simp [Bloom.check_and_set, Bloom.check, Bloom.set, hk, List.range_succ_eq_map,
        Bloom.check_and_setAux, Bloom.checkAux, Bloom.setAux, hz]

/-- The round-`k_i ≥ 2` derivation exactly as the claim words it:
`h0 + ((k_i * h1) mod M)` with *exact* integer multiplication of
`k_i * h1`, the final addition wrapping mod `2^64`. -/
def hashDeriveClaim (h0 h1 k_i : Nat) : Nat :=
  (h0 + k_i * h1 % bloomM) % 2 ^ 64

/-- C3 counterexample: with cached hashes `(0, 2^63)` at round 2 the
code first wraps the product — `(2 * 2^63) mod 2^64 = 0` — and only then
reduces mod `M`, returning `0`; the claim's exact-multiplication formula
gives `2^64 mod M = 59` instead. -/
theorem c3_counterexample :
    (Bloom.bloom_hash { bitmap := [], bitmap_bits := 0, k_num := 0, sip0 := fun _ : Nat => 0, sip1 := fun _ => 0 } (0, 2 ^ 63) 0 2).1 ≠ hashDeriveClaim 0 (2 ^ 63) 2 := by
  decide

/-- C3 (amended): for rounds 0 and 1, `bloom_hash` computes a fresh
keyed hash of the item (a 64-bit value) and caches it; for every round
`k_i ≥ 2` it returns `(h0 + ((k_i * h1) mod 2^64) mod M) mod 2^64` with
`M = 2^64 - 59`: the multiplication is *wraparound* 64-bit
multiplication, its residue mod `M` is added to `h0` with wraparound
64-bit addition (so there is no overflow error, the result staying below
`2^64`), and the cached pair is left unchanged. -/
theorem c3_hash_derive_amended {α : Type} (f : Bloom α) (hashes : Nat × Nat)
    (item : α) (k_i : Nat) :
    f.bloom_hash hashes item 0 =
      (f.sip0 item % 2 ^ 64, (f.sip0 item % 2 ^ 64, hashes.2)) ∧
    f.bloom_hash hashes item 1 =
      (f.sip1 item % 2 ^ 64, (hashes.1, f.sip1 item % 2 ^ 64)) ∧
    bloomM = 2 ^ 64 - 59 ∧
    (2 ≤ k_i →
      f.bloom_hash hashes item k_i =
        ((hashes.1 + k_i * hashes.2 % 2 ^ 64 % bloomM) % 2 ^ 64, hashes) ∧
      (f.bloom_hash hashes item k_i).1 < 2 ^ 64) := by
  refine ⟨rfl, rfl, by norm_num [bloomM], fun hk => ?_⟩
  have h0 : ¬ (k_i = 0) := by omega
  have h1 : ¬ (k_i = 1) := by omega
  refine ⟨by simp [Bloom.bloom_hash, bloomHashWith, h0, h1], ?_⟩
  simp only [Bloom.bloom_hash, bloomHashWith, h0, h1, if_false]
  exact Nat.mod_lt _ (by norm_num)

/-- C3 amended witness: the formula evaluated at round 2 with cached
hashes `(5, 2^63)`. -/
theorem c3_hash_derive_amended_witness :
    Bloom.bloom_hash { bitmap := [], bitmap_bits := 0, k_num := 0, sip0 := fun _ : Nat => 0, sip1 := fun _ => 0 } (5, 2 ^ 63) 0 2 =
      ((5 + 2 * 2 ^ 63 % 2 ^ 64 % bloomM) % 2 ^ 64, (5, 2 ^ 63)) :=
  ((c3_hash_derive_amended _ (5, 2 ^ 63) 0 2).2.2.2 (by omega)).1

/-- C4: serialization round-trip — for a filter built by `new`, feeding
`to_bytes` back through `from_bytes` (with the hash seeds pinned to the
original's) reproduces the bitmap bit-for-bit, a `bit_count` equal to
`len(bytes) * 8` and to the original's, the original `hash_rounds`, and
hence identical `check` results for every item. -/
theorem c4_roundtrip {α : Type} (size items kEst : Nat) (s0 s1 : α → Nat)
    (f : Bloom α) (hnew : Bloom.new size items kEst s0 s1 = some f) :
    (Bloom.from_bytes (f.to_bytes).1 (f.to_bytes).2 f.sip0 f.sip1).bitmap = f.bitmap ∧
    (Bloom.from_bytes (f.to_bytes).1 (f.to_bytes).2 f.sip0 f.sip1).bitmap_bits = (f.to_bytes).1.length * 8 ∧
    (Bloom.from_bytes (f.to_bytes).1 (f.to_bytes).2 f.sip0 f.sip1).bitmap_bits = f.bitmap_bits ∧
    (Bloom.from_bytes (f.to_bytes).1 (f.to_bytes).2 f.sip0 f.sip1).k_num = f.k_num ∧
    ∀ x, (Bloom.from_bytes (f.to_bytes).1 (f.to_bytes).2 f.sip0 f.sip1).check x = f.check x := by
  obtain ⟨_, _, hbm, hbits, _, _, _⟩ := new_eq_some hnew
  have hdvd : 8 ∣ f.bitmap.length := by
    rw [hbm, List.length_replicate]
    exact ⟨size, by ring⟩
  have hrt : bitVecFromBytes (bitVecToBytes f.bitmap) = f.bitmap :=
    bitVecFromBytes_toBytes hdvd
  have hblen : f.bitmap.length = f.bitmap_bits := by
    rw [hbm, hbits, List.length_replicate]
  have hlen8 : (bitVecToBytes f.bitmap).length * 8 = f.bitmap_bits := by
    have h := congrArg List.length hrt
    rw [length_bitVecFromBytes] at h
    omega
  have hg : Bloom.from_bytes (f.to_bytes).1 (f.to_bytes).2 f.sip0 f.sip1 = f := by
    cases f with
    | mk bitmap bits k fs0 fs1 =>
      have h1 : bitVecFromBytes (bitVecToBytes bitmap) = bitmap := hrt
      have h2 : (bitVecToBytes bitmap).length * 8 = bits := hlen8
      simp [Bloom.from_bytes, Bloom.to_bytes, h1, h2]
  refine ⟨by rw [hg], rfl, by rw [hg], by rw [hg], fun x => by rw [hg]⟩

/-- C4 witness: a concrete filter from `new 1 1`. -/
theorem c4_roundtrip_witness :
    (Bloom.from_bytes (Bloom.to_bytes { bitmap := List.replicate 8 false, bitmap_bits := 8, k_num := 1, sip0 := fun n : Nat => n, sip1 := fun n => n + 1 }).1 (Bloom.to_bytes { bitmap := List.replicate 8 false, bitmap_bits := 8, k_num := 1, sip0 := fun n : Nat => n, sip1 := fun n => n + 1 }).2 (fun n : Nat => n) (fun n => n + 1)).bitmap = Bloom.bitmap { bitmap := List.replicate 8 false, bitmap_bits := 8, k_num := 1, sip0 := fun n : Nat => n, sip1 := fun n => n + 1 } :=
  (c4_roundtrip 1 1 0 (fun n : Nat => n) (fun n => n + 1) _ rfl).1

/-- C5 counterexample: a filter constructed via `from_bytes` with a
caller-supplied round count of `0` has `hash_rounds = 0 < 1`, refuting
"hash_rounds is at least 1 for every Filter however constructed". -/
theorem c5_counterexample :
    ¬ 1 ≤ (Bloom.from_bytes [] 0 (fun _ : Nat => 0) (fun _ => 0)).k_num := by
  decide

/-- C5 (amended): `optimal_k_num` is at least 1 for every input, and
every filter constructed via `new` or `new_for_fp_rate` has
`hash_rounds ≥ 1`; `from_bytes`, however, stores the caller-supplied
round count verbatim, which may be `0`. -/
theorem c5_hash_rounds_amended {α : Type} :
    (∀ m n kEst : Nat, 1 ≤ Bloom.optimal_k_num m n kEst) ∧
    (∀ (size items kEst : Nat) (s0 s1 : α → Nat) (f : Bloom α),
      Bloom.new size items kEst s0 s1 = some f → 1 ≤ f.k_num) ∧
    (∀ (items : Nat) (fp : ℚ) (sizeF kEst : Nat) (s0 s1 : α → Nat) (f : Bloom α),
      Bloom.new_for_fp_rate items fp sizeF kEst s0 s1 = some f → 1 ≤ f.k_num) ∧
    (∀ (bytes : List Nat) (k : Nat) (s0 s1 : α → Nat),
      (Bloom.from_bytes bytes k s0 s1).k_num = k) := by
  refine ⟨fun m n kEst => le_max_right _ _, ?_, ?_, fun _ _ _ _ => rfl⟩
  · intro size items kEst s0 s1 f h
    obtain ⟨_, _, _, _, h5, _, _⟩ := new_eq_some h
    rw [h5]
    exact le_max_right _ _
  · intro items fp sizeF kEst s0 s1 f h
    simp only [Bloom.new_for_fp_rate] at h
    rcases hc : Bloom.compute_bitmap_size items fp sizeF with _ | sz
    · rw [hc] at h
      simp at h
    · rw [hc, Option.some_bind] at h
      obtain ⟨_, _, _, _, h5, _, _⟩ := new_eq_some h
      rw [h5]
      exact le_max_right _ _

/-- C5 amended witness: concrete filters from `new` and
`new_for_fp_rate` both have at least one hash round. -/
theorem c5_hash_rounds_amended_witness :
    1 ≤ Bloom.k_num { bitmap := List.replicate 8 false, bitmap_bits := 8, k_num := 1, sip0 := fun n : Nat => n, sip1 := fun n => n + 1 } ∧
      1 ≤ Bloom.k_num { bitmap := List.replicate 8 false, bitmap_bits := 8, k_num := 1, sip0 := fun n : Nat => n, sip1 := fun n => n + 1 } :=
  ⟨c5_hash_rounds_amended.2.1 1 1 0 (fun n : Nat => n) (fun n => n + 1) _ rfl,
   c5_hash_rounds_amended.2.2.1 10 (1 / 2) 1 0 (fun n : Nat => n) (fun n => n + 1) _
     (by norm_num [Bloom.new_for_fp_rate, Bloom.compute_bitmap_size, Bloom.new,
       Bloom.optimal_k_num])⟩

/-- C6: `clear` resets every bit to unset while leaving `bitmap_bits`,
`k_num` and the two hash seeds unchanged; consequently, after a
successful `set x` on a filter with at least one hash round, `clear`
yields a state where `check x` returns `false`. -/
theorem c6_clear_resets {α : Type} :
    (∀ f : Bloom α,
      (f.clear).bitmap_bits = f.bitmap_bits ∧ (f.clear).k_num = f.k_num ∧
        (f.clear).sip0 = f.sip0 ∧ (f.clear).sip1 = f.sip1 ∧
        ∀ p, (f.clear).bitmap.getD p false = false) ∧
    (∀ (f f1 : Bloom α) (x : α), 1 ≤ f.k_num → f.set x = some f1 →
      (f1.clear).check x = some false) := by
  constructor
  · intro f
    exact ⟨rfl, rfl, rfl, rfl, fun p => getD_replicate_false _ _⟩
  · intro f f1 x hk hset
    obtain ⟨hne, hlt⟩ := set_some_head hk hset
    obtain ⟨e1, e2, e3, e4, e5⟩ := set_fields hset
    obtain ⟨m, hm⟩ : ∃ m, f.k_num = m + 1 := ⟨f.k_num - 1, by omega⟩
    simp only [Bloom.check, Bloom.clear, Bloom.checkAux, Bloom.bloom_hash,
      e1, e2, e3, e4, hm, List.range_succ_eq_map]
    rw [if_neg hne, List.getElem?_replicate, if_pos (by rw [e5]; exact hlt)]
    simp

/-- C6 witness: a concrete `set 5; clear; check 5` run returning `false`. -/
theorem c6_clear_resets_witness :
    Bloom.check (Bloom.clear (⟨[false, false, false, false, false, true, false, false], 8, 1, fun n => n, fun n => n + 1⟩ : Bloom Nat)) 5 = some false :=
  c6_clear_resets.2
    ⟨List.replicate 8 false, 8, 1, fun n => n, fun n => n + 1⟩
    _ 5 (by decide) rfl

/-- C7: journal cardinality of the journaled variant — a single `set`
call on a filter whose word range is all zero appends exactly `k_num`
entries to the dirty journal (one per round, collisions included). -/
theorem c7_journal_cardinality {α : Type} (f f2 : JournalBloom α) (x : α)
    (_hzero : ∀ w ∈ f.store.words, w = 0) (hset : f.set x = some f2) :
    f2.store.dirty.length = f.store.dirty.length + f.k_num := by
  simp only [JournalBloom.set] at hset
  rcases haux : JournalBloom.setAux f x (0, 0) f.store (List.range f.k_num) with _ | s2
  · rw [haux] at hset
    simp at hset
  · rw [haux] at hset
    simp only [Option.map_some', Option.some.injEq] at hset
    have hd := jSetAux_dirty f x (List.range f.k_num) (0, 0) f.store s2 haux
    rw [← hset]
    simpa [List.length_range] using hd

/-- C7 witness: a three-round `set` on an all-zero one-word store
appends exactly three journal entries. -/
theorem c7_journal_cardinality_witness :
    (⟨⟨[268], [0, 0, 0]⟩, 64, 3, fun n => n, fun n => n + 1⟩ : JournalBloom Nat).store.dirty.length = (⟨⟨[0], []⟩, 64, 3, fun n => n, fun n => n + 1⟩ : JournalBloom Nat).store.dirty.length + 3 :=
  c7_journal_cardinality ⟨⟨[0], []⟩, 64, 3, fun n => n, fun n => n + 1⟩ _ 2 (by simp) rfl

/-- The exact real value of the sizing expression of
`compute_bitmap_size` is strictly positive whenever `items_count ≥ 1`
and `0 < p < 1`, which is why its ceiling — the value the parameter
`sizeF` models — is at least 1 for valid inputs. -/
theorem compute_bitmap_size_formula_pos (n : ℕ) (p : ℝ) (hn : 1 ≤ n)
    (h0 : 0 < p) (h1 : p < 1) :
    0 < (n : ℝ) * Real.log p / (-8 * Real.log 2 ^ 2) := by
  have hlp : Real.log p < 0 := Real.log_neg h0 h1
  have hl2 : 0 < Real.log 2 := Real.log_pos (by norm_num)
  have hnpos : (0 : ℝ) < n := by exact_mod_cast hn
  have hnum : (n : ℝ) * Real.log p < 0 := mul_neg_of_pos_of_neg hnpos hlp
  have hden : (-8 : ℝ) * Real.log 2 ^ 2 < 0 := by nlinarith
  exact div_pos_of_neg_of_neg hnum hden

/-- C8: constructor preconditions are fatal — `new` yields `none`
(a panic, producing no filter state) exactly when `bitmap_size = 0` or
`items_count = 0`; `new_for_fp_rate` — given that the floating-point
sizing expression yields at least 1, as its exact real value always
does for valid inputs — yields `none` exactly when `items_count = 0` or
the target rate lies outside `(0, 1)`. -/
theorem c8_constructor_panics {α : Type} :
    (∀ (size items kEst : Nat) (s0 s1 : α → Nat),
      Bloom.new size items kEst s0 s1 = none ↔ size = 0 ∨ items = 0) ∧
    (∀ (items : Nat) (fp : ℚ) (sizeF kEst : Nat) (s0 s1 : α → Nat), 1 ≤ sizeF →
      (Bloom.new_for_fp_rate items fp sizeF kEst s0 s1 = none ↔
        items = 0 ∨ ¬ (0 < fp ∧ fp < 1))) := by
  constructor
  · intro size items kEst s0 s1
    by_cases hc : size > 0 ∧ items > 0
    · simp only [Bloom.new, if_pos hc]
      constructor
      · intro h; simp at h
      · intro h; omega
    · simp only [Bloom.new, if_neg hc]
      constructor
      · intro _; omega
      · intro _; trivial
  · intro items fp sizeF kEst s0 s1 hs
    by_cases hi : items > 0
    · by_cases hp : 0 < fp ∧ fp < 1
      · simp only [Bloom.new_for_fp_rate, Bloom.compute_bitmap_size, if_pos hi,
          if_pos hp, Option.some_bind, Bloom.new, if_pos (by omega : sizeF > 0 ∧ items > 0)]
        constructor
        · intro h; simp at h
        · intro h
          rcases h with h | h
          · omega
          · exact absurd hp h
      · simp only [Bloom.new_for_fp_rate, Bloom.compute_bitmap_size, if_pos hi,
          if_neg hp, Option.none_bind]
        constructor
        · intro _; exact Or.inr hp
        · intro _; trivial
    · simp only [Bloom.new_for_fp_rate, Bloom.compute_bitmap_size, if_neg hi,
        Option.none_bind]
      constructor
      · intro _; omega
      · intro _; trivial

/-- C8 witness: the iff instantiated at a valid concrete call. -/
theorem c8_constructor_panics_witness :
    (Bloom.new_for_fp_rate 10 (1 / 2) 1 0 (fun n : Nat => n) (fun n => n + 1) = none ↔
      (10 : Nat) = 0 ∨ ¬ ((0 : ℚ) < 1 / 2 ∧ (1 : ℚ) / 2 < 1)) :=
  c8_constructor_panics.2 10 (1 / 2) 1 0 (fun n : Nat => n) (fun n => n + 1) (by omega)

/-- C2 witness: a concrete filter with two hash rounds. -/
theorem c2_check_and_set_equiv_witness :
    (Bloom.check_and_set { bitmap := List.replicate 8 false, bitmap_bits := 8, k_num := 2, sip0 := fun n => n, sip1 := fun n => n + 1 } 3).map Prod.fst = Bloom.check { bitmap := List.replicate 8 false, bitmap_bits := 8, k_num := 2, sip0 := fun n => n, sip1 := fun n => n + 1 } 3 ∧
      (Bloom.check_and_set { bitmap := List.replicate 8 false, bitmap_bits := 8, k_num := 2, sip0 := fun n => n, sip1 := fun n => n + 1 } 3).map Prod.snd = Bloom.set { bitmap := List.replicate 8 false, bitmap_bits := 8, k_num := 2, sip0 := fun n => n, sip1 := fun n => n + 1 } 3 :=
  c2_check_and_set_equiv _ 3 rfl

/-- C9: the representation invariant `bitmap.length = bitmap_bits` is
established by both constructors, preserved by `set`, `check_and_set`
and `clear`, and — with a positive bit count — makes every bit offset
computed as `hash % bit_count` strictly smaller than the bitmap length,
so no bitmap access (nor the `unwrap` in `check`/`check_and_set`) goes
out of bounds: all three operations return `some`. -/
theorem c9_invariant {α : Type} :
    (∀ (size items kEst : Nat) (s0 s1 : α → Nat) (f : Bloom α),
      Bloom.new size items kEst s0 s1 = some f → f.bitmap.length = f.bitmap_bits) ∧
    (∀ (bytes : List Nat) (k : Nat) (s0 s1 : α → Nat),
      (Bloom.from_bytes bytes k s0 s1).bitmap.length =
        (Bloom.from_bytes bytes k s0 s1).bitmap_bits) ∧
    (∀ (f f2 : Bloom α) (x : α), f.bitmap.length = f.bitmap_bits →
      f.set x = some f2 → f2.bitmap.length = f2.bitmap_bits) ∧
    (∀ (f f2 : Bloom α) (x : α) (b : Bool), f.bitmap.length = f.bitmap_bits →
      f.check_and_set x = some (b, f2) → f2.bitmap.length = f2.bitmap_bits) ∧
    (∀ f : Bloom α, f.bitmap.length = f.bitmap_bits →
      (f.clear).bitmap.length = (f.clear).bitmap_bits) ∧
    (∀ (f : Bloom α) (x : α) (o : Nat), f.bitmap.length = f.bitmap_bits →
      0 < f.bitmap_bits → o ∈ f.offsets x → o < f.bitmap.length) ∧
    (∀ (f : Bloom α) (x : α), f.bitmap.length = f.bitmap_bits → 0 < f.bitmap_bits →
      (f.set x).isSome ∧ (f.check x).isSome ∧ (f.check_and_set x).isSome) := by
  refine ⟨?_, ?_, ?_, ?_, ?_, ?_, ?_⟩
  · intro size items kEst s0 s1 f h
    exact (new_wf h).2.1
  · intro bytes k s0 s1
    simp only [Bloom.from_bytes]
    rw [length_bitVecFromBytes]
    ring
  · intro f f2 x hlen hset
    obtain ⟨e1, _, _, _, e5⟩ := set_fields hset
    omega
  · intro f f2 x b hlen hcas
    obtain ⟨e1, _, _, _, e5⟩ := check_and_setAux_fields x (List.range f.k_num) f f2
      (0, 0) true b hcas
    omega
  · intro f hlen
    simp only [Bloom.clear, List.length_replicate]
    omega
  · intro f x o hlen hb ho
    exact lt_of_lt_of_le (offsetsAux_lt _ _ _ hb _ _ _ ho) hlen.ge
  · intro f x hlen hb
    rw [set_eq_setBits f x hb hlen.ge, check_eq_allSet f x hb hlen.ge,
      check_and_set_eq f x hb hlen.ge]
    exact ⟨rfl, rfl, rfl⟩

/-- C9 witness: the invariant and panic-freedom at a concrete filter. -/
theorem c9_invariant_witness :
    (Bloom.bitmap (⟨List.replicate 8 false, 8, 1, fun n => n, fun n => n + 1⟩ : Bloom Nat)).length = Bloom.bitmap_bits (⟨List.replicate 8 false, 8, 1, fun n => n, fun n => n + 1⟩ : Bloom Nat) ∧
      (Bloom.set (⟨List.replicate 8 false, 8, 1, fun n => n, fun n => n + 1⟩ : Bloom Nat) 3).isSome ∧
      (Bloom.check (⟨List.replicate 8 false, 8, 1, fun n => n, fun n => n + 1⟩ : Bloom Nat) 3).isSome ∧
      (Bloom.check_and_set (⟨List.replicate 8 false, 8, 1, fun n => n, fun n => n + 1⟩ : Bloom Nat) 3).isSome :=
  ⟨c9_invariant.1 1 1 0 (fun n => n) (fun n => n + 1) _ rfl,
   (c9_invariant.2.2.2.2.2.2 ⟨List.replicate 8 false, 8, 1, fun n => n, fun n => n + 1⟩ 3 rfl (by decide)).1,
   (c9_invariant.2.2.2.2.2.2 ⟨List.replicate 8 false, 8, 1, fun n => n, fun n => n + 1⟩ 3 rfl (by decide)).2.1,
   (c9_invariant.2.2.2.2.2.2 ⟨List.replicate 8 false, 8, 1, fun n => n, fun n => n + 1⟩ 3 rfl (by decide)).2.2⟩

/-- C10: `from_bytes` performs no validation, so an empty byte slice
yields a filter with `bit_count = 0`, on which — for any `k_num ≥ 1` —
every `set`, `check`, or `check_and_set` call panics (`none`) at the
remainder-by-zero reduction of the hash. -/
theorem c10_empty_from_bytes_panics {α : Type} (k : Nat) (s0 s1 : α → Nat) (x : α)
    (hk : 1 ≤ k) :
    (Bloom.from_bytes [] k s0 s1).bitmap_bits = 0 ∧
    (Bloom.from_bytes [] k s0 s1).set x = none ∧
    (Bloom.from_bytes [] k s0 s1).check x = none ∧
    (Bloom.from_bytes [] k s0 s1).check_and_set x = none := by
  obtain ⟨m, hm⟩ : ∃ m, k = m + 1 := ⟨k - 1, by omega⟩
  subst hm
  refine ⟨rfl, ?_, ?_, ?_⟩ <;>
    simp [Bloom.set, Bloom.check, Bloom.check_and_set, Bloom.from_bytes,
      List.range_succ_eq_map, Bloom.setAux, Bloom.checkAux, Bloom.check_and_setAux]

/-- C10 witness: the empty-bytes filter with one hash round. -/
theorem c10_empty_from_bytes_panics_witness :
    (Bloom.from_bytes [] 1 (fun n : Nat => n) (fun n => n + 1)).bitmap_bits = 0 ∧
    (Bloom.from_bytes [] 1 (fun n : Nat => n) (fun n => n + 1)).set 3 = none ∧
    (Bloom.from_bytes [] 1 (fun n : Nat => n) (fun n => n + 1)).check 3 = none ∧
    (Bloom.from_bytes [] 1 (fun n : Nat => n) (fun n => n + 1)).check_and_set 3 = none :=
  c10_empty_from_bytes_panics 1 (fun n : Nat => n) (fun n => n + 1) 3 (by decide)
